import Mathlib

/-!
Verification development for the hardware-agnostic layer of the QuEST
quantum-circuit simulator (`QuEST_common.c`).

The source's `Complex` / `ComplexMatrix2` / `ComplexMatrix4` value types are
embedded as Lean structures with the source field names.  The scalar type
`qreal` is modelled by an arbitrary linearly ordered field `K` wherever the
code only uses field arithmetic, and by `ℝ` wherever the code calls into
`sqrt`, `cos`, `sin`, `acos` or `atan2`.

Kernel primitives (`statevec_compactUnitary`, `statevec_multiRotateZ`,
`statevec_controlledNot`, `statevec_multiControlledTwoQubitUnitary`, ...)
live outside this file's source; where their behaviour matters they are
modelled from the spec, and where only the call structure matters they are
passed in as abstract function records.
-/

namespace QuESTCommon

/-- The source's `Complex` value type (a pair of `qreal` components), with
the scalar type left polymorphic.  Named `Cmplx` to avoid clashing with
Mathlib's `Complex`. -/
@[ext]
structure Cmplx (K : Type) where
  re : K
  im : K
deriving DecidableEq

namespace Cmplx

variable {K : Type} [LinearOrderedField K]

instance : Zero (Cmplx K) := ⟨⟨0, 0⟩⟩

instance : One (Cmplx K) := ⟨⟨1, 0⟩⟩

instance : Add (Cmplx K) := ⟨fun a b => ⟨a.re + b.re, a.im + b.im⟩⟩

instance : Neg (Cmplx K) := ⟨fun a => ⟨-a.re, -a.im⟩⟩

instance : Mul (Cmplx K) := ⟨fun a b => ⟨a.re * b.re - a.im * b.im, a.re * b.im + a.im * b.re⟩⟩

@[simp] theorem zero_re : (0 : Cmplx K).re = 0 := rfl

@[simp] theorem zero_im : (0 : Cmplx K).im = 0 := rfl

@[simp] theorem one_re : (1 : Cmplx K).re = 1 := rfl

@[simp] theorem one_im : (1 : Cmplx K).im = 0 := rfl

@[simp] theorem add_re (a b : Cmplx K) : (a + b).re = a.re + b.re := rfl

@[simp] theorem add_im (a b : Cmplx K) : (a + b).im = a.im + b.im := rfl

@[simp] theorem neg_re (a : Cmplx K) : (-a).re = -a.re := rfl

@[simp] theorem neg_im (a : Cmplx K) : (-a).im = -a.im := rfl

@[simp] theorem mul_re (a b : Cmplx K) : (a * b).re = a.re * b.re - a.im * b.im := rfl

@[simp] theorem mul_im (a b : Cmplx K) : (a * b).im = a.re * b.im + a.im * b.re := rfl

instance : CommRing (Cmplx K) where
  add_assoc := by intros; ext <;> simp <;> ring
  zero_add := by intros; ext <;> simp
  add_zero := by intros; ext <;> simp
  add_comm := by intros; ext <;> simp <;> ring
  left_distrib := by intros; ext <;> simp <;> ring
  right_distrib := by intros; ext <;> simp <;> ring
  zero_mul := by intros; ext <;> simp
  mul_zero := by intros; ext <;> simp
  mul_assoc := by intros; ext <;> simp <;> ring
  one_mul := by intros; ext <;> simp
  mul_one := by intros; ext <;> simp
  mul_comm := by intros; ext <;> simp <;> ring
  neg_add_cancel := by intros; ext <;> simp
  nsmul := nsmulRec
  zsmul := zsmulRec

end Cmplx

variable {K : Type} [LinearOrderedField K]

/-- `getConjugateScalar`: complex conjugate of a scalar (QuEST_common.c:71). -/
def getConjugateScalar (scalar : Cmplx K) : Cmplx K :=
  ⟨scalar.re, -scalar.im⟩

/-- The `pauliOpType` enum of QuEST.h: `PAULI_I=0, PAULI_X=1, PAULI_Y=2, PAULI_Z=3`. -/
inductive pauliOpType where
  | PAULI_I
  | PAULI_X
  | PAULI_Y
  | PAULI_Z
deriving DecidableEq

/-- The ordinal value of a `pauliOpType` tag, as used when C converts the
enum to an integer. -/
def pauliOpType.toNat : pauliOpType → Nat
  | .PAULI_I => 0
  | .PAULI_X => 1
  | .PAULI_Y => 2
  | .PAULI_Z => 3

/-- `getQubitBitMask` (QuEST_common.c:32): builds a bit-string where 1
indicates a qubit is present in this list.  The C `long long int` mask is
non-negative here (it only ORs in `1LL << qubits[i]` bits), so the OR loop
is carried out in `ℕ`. -/
def getQubitBitMask (qubits : List Nat) : Nat :=
  qubits.foldl (fun mask q => mask ||| (1 <<< q)) 0

/-! ### Multi-qubit Pauli-string rotation (`statevec_multiRotatePauli`, lines 397-432)

The kernel primitives `statevec_compactUnitary` and `statevec_multiRotateZ`
are external collaborators; only the call structure of the composition
matters for the mask claim, so they are passed in as an abstract record.
The C `long long int` mask is modelled as `ℤ` (built from the non-negative
`getQubitBitMask` result, then decremented by signed subtraction). -/

/-- Abstract record of the kernel primitives that
`statevec_multiRotatePauli` calls: a single-qubit compact unitary
(register, target, alpha, beta) and the masked parity Z-rotation
(register, mask, angle). -/
structure RotateKernels (S : Type) where
  compactUnitary : S → Nat → Cmplx ℝ → Cmplx ℝ → S
  multiRotateZ : S → Int → ℝ → S

/-- The first loop body of `statevec_multiRotatePauli` (lines 411-419),
threading the (mask, register) pair through one `(targetQubit, targetPauli)`
entry.  Mirrors the source exactly: an Identity tag subtracts
`1 << targetPaulis[t]` (the *tag's ordinal*, i.e. `1 << 0`) from the mask,
an X tag applies `compactUnitary` with the Ry(pi/2) pair, a Y tag with the
Rx(pi/2) pair. -/
def multiRotatePauliBasisStep (ker : RotateKernels S)
    (uRxAlpha uRxBeta uRyAlpha uRyBeta : Cmplx ℝ)
    (ms : Int × S) (qp : Nat × pauliOpType) : Int × S :=
  let mask := if qp.2 = .PAULI_I then ms.1 - ((1 <<< qp.2.toNat : Nat) : Int) else ms.1
  let st :=
    if qp.2 = .PAULI_X then ker.compactUnitary ms.2 qp.1 uRyAlpha uRyBeta
    else if qp.2 = .PAULI_Y then ker.compactUnitary ms.2 qp.1 uRxAlpha uRxBeta
    else ms.2
  (mask, st)

/-- The second loop body (lines 426-431): undoing the X and Y basis
rotations with the sign-flipped beta components. -/
def multiRotatePauliUndoStep (ker : RotateKernels S)
    (uRxAlpha uRxBeta uRyAlpha uRyBeta : Cmplx ℝ)
    (st : S) (qp : Nat × pauliOpType) : S :=
  if qp.2 = .PAULI_X then ker.compactUnitary st qp.1 uRyAlpha uRyBeta
  else if qp.2 = .PAULI_Y then ker.compactUnitary st qp.1 uRxAlpha uRxBeta
  else st

/-- `statevec_multiRotatePauli` (QuEST_common.c:397-432): rotates X/Y-tagged
targets into the Z basis, calls the masked parity Z-rotation with the
(Identity-filtered) mask and the possibly negated angle, then un-rotates. -/
noncomputable def statevec_multiRotatePauli (ker : RotateKernels S) (qureg : S)
    (targetQubits : List Nat) (targetPaulis : List pauliOpType)
    (angle : ℝ) (applyConj : Bool) : S :=
  let fac : ℝ := 1 / Real.sqrt 2
  let uRxAlpha : Cmplx ℝ := ⟨fac, 0⟩
  let uRxBeta : Cmplx ℝ := ⟨0, if applyConj then fac else -fac⟩
  let uRyAlpha : Cmplx ℝ := ⟨fac, 0⟩
  let uRyBeta : Cmplx ℝ := ⟨fac, 0⟩
  let mask0 : Int := (getQubitBitMask targetQubits : Nat)
  let ms := (targetQubits.zip targetPaulis).foldl
    (multiRotatePauliBasisStep ker uRxAlpha uRxBeta uRyAlpha uRyBeta) (mask0, qureg)
  let st1 := ker.multiRotateZ ms.2 ms.1 (if applyConj then -angle else angle)
  let uRxBeta2 : Cmplx ℝ := ⟨uRxBeta.re, -uRxBeta.im⟩
  let uRyBeta2 : Cmplx ℝ := ⟨-uRyBeta.re, uRyBeta.im⟩
  (targetQubits.zip targetPaulis).foldl
    (multiRotatePauliUndoStep ker uRxAlpha uRxBeta2 uRyAlpha uRyBeta2) st1

/-- The mask value that `statevec_multiRotatePauli` passes to
`statevec_multiRotateZ`, computed on its own: the full target mask with
`1 << targetPaulis[t]` subtracted for each Identity-tagged entry. -/
def multiRotatePauliMask (targetQubits : List Nat) (targetPaulis : List pauliOpType) : Int :=
  (targetQubits.zip targetPaulis).foldl
    (fun mask qp => if qp.2 = .PAULI_I then mask - ((1 <<< qp.2.toNat : Nat) : Int) else mask)
    ((getQubitBitMask targetQubits : Nat) : Int)

/-- The mask the claim asserts is passed to the parity Z-rotation: the OR of
`1 << targetQubits[t]` over exactly the non-Identity-tagged entries.  Stated
from the claim's words, for comparison with the source's computation. -/
def nonIdentityTargetMask (targetQubits : List Nat) (targetPaulis : List pauliOpType) : Int :=
  ((targetQubits.zip targetPaulis).foldl
    (fun mask qp => if qp.2 ≠ .PAULI_I then mask ||| (1 <<< qp.1) else mask) (0 : Nat) : Nat)

/-- A kernel instance that records the mask argument of the one
`multiRotateZ` call and ignores everything else. -/
def maskRecorder : RotateKernels (Option Int) where
  compactUnitary := fun s _ _ _ => s
  multiRotateZ := fun _ mask _ => some mask

/-- Under the recording kernels, the basis-rotation loop leaves the register
untouched and computes exactly `multiRotatePauliMask`'s fold. -/
theorem multiRotatePauliBasisStep_recorder (l : List (Nat × pauliOpType))
    (a b c d : Cmplx ℝ) (m : Int) (s : Option Int) :
    l.foldl (multiRotatePauliBasisStep maskRecorder a b c d) (m, s) =
      (l.foldl (fun mask qp =>
        if qp.2 = .PAULI_I then mask - ((1 <<< qp.2.toNat : Nat) : Int) else mask) m, s) := by
  induction l generalizing m s with
  | nil => rfl
  | cons hd tl ih =>
      simp only [List.foldl_cons]
      rw [show multiRotatePauliBasisStep maskRecorder a b c d (m, s) hd =
        ((if hd.2 = .PAULI_I then m - ((1 <<< hd.2.toNat : Nat) : Int) else m), s) from ?_, ih]
      unfold multiRotatePauliBasisStep maskRecorder
      rcases hd with ⟨q, p⟩
      cases p <;> rfl

/-- Under the recording kernels, the undo loop is the identity. -/
theorem multiRotatePauliUndoStep_recorder (l : List (Nat × pauliOpType))
    (a b c d : Cmplx ℝ) (s : Option Int) :
    l.foldl (multiRotatePauliUndoStep maskRecorder a b c d) s = s := by
  induction l generalizing s with
  | nil => rfl
  | cons hd tl ih =>
      simp only [List.foldl_cons]
      rw [show multiRotatePauliUndoStep maskRecorder a b c d s hd = s from ?_, ih]
      unfold multiRotatePauliUndoStep maskRecorder
      rcases hd with ⟨q, p⟩
      cases p <;> rfl

/-- The mask argument that `statevec_multiRotatePauli` hands to the
`statevec_multiRotateZ` kernel is exactly `multiRotatePauliMask`. -/
theorem multiRotatePauli_mask_passed (targetQubits : List Nat)
    (targetPaulis : List pauliOpType) (angle : ℝ) (applyConj : Bool) :
    statevec_multiRotatePauli maskRecorder none targetQubits targetPaulis angle applyConj =
      some (multiRotatePauliMask targetQubits targetPaulis) := by
  simp only [statevec_multiRotatePauli, multiRotatePauliMask]
  rw [multiRotatePauliBasisStep_recorder, multiRotatePauliUndoStep_recorder]
  rfl

/-- C1: with the single target qubit 1 tagged `PAULI_I`, the mask that
`statevec_multiRotatePauli` passes to `statevec_multiRotateZ` is 1 (the
code subtracts `1 << PAULI_I = 1 << 0`, clearing bit 0 — which is not even
a target), whereas the claimed mask — the OR of `1 << targetQubits[t]` over
the non-Identity-tagged targets — is 0.  The code thus contradicts its own
`// remove target from mask` comment: it shifts by the Pauli tag's ordinal
instead of the qubit's index. -/
theorem multiRotatePauli_identityTag_mask_bug :
    statevec_multiRotatePauli maskRecorder none [1] [pauliOpType.PAULI_I] 0 false = some 1 ∧
    nonIdentityTargetMask [1] [pauliOpType.PAULI_I] = 0 := by
  refine ⟨?_, by decide⟩
  rw [multiRotatePauli_mask_passed]
  decide

/-! ### Kraus superoperator builder (lines 498-571) -/

/-- The source's `ComplexMatrix2` (QuEST.h): a 2x2 complex matrix with
explicit per-entry fields. -/
@[ext]
structure ComplexMatrix2 (K : Type) where
  r0c0 : Cmplx K
  r0c1 : Cmplx K
  r1c0 : Cmplx K
  r1c1 : Cmplx K
deriving DecidableEq

/-- The source's `ComplexMatrix4` (QuEST.h): a 4x4 complex matrix with
explicit per-entry fields. -/
@[ext]
structure ComplexMatrix4 (K : Type) where
  r0c0 : Cmplx K
  r0c1 : Cmplx K
  r0c2 : Cmplx K
  r0c3 : Cmplx K
  r1c0 : Cmplx K
  r1c1 : Cmplx K
  r1c2 : Cmplx K
  r1c3 : Cmplx K
  r2c0 : Cmplx K
  r2c1 : Cmplx K
  r2c2 : Cmplx K
  r2c3 : Cmplx K
  r3c0 : Cmplx K
  r3c1 : Cmplx K
  r3c2 : Cmplx K
  r3c3 : Cmplx K
deriving DecidableEq

/-- Index accessor for `ComplexMatrix2` (row, column). -/
def m2get (m : ComplexMatrix2 K) : Fin 2 → Fin 2 → Cmplx K :=
  ![![m.r0c0, m.r0c1], ![m.r1c0, m.r1c1]]

/-- Index accessor for `ComplexMatrix4` (row, column). -/
def m4get (m : ComplexMatrix4 K) : Fin 4 → Fin 4 → Cmplx K :=
  ![![m.r0c0, m.r0c1, m.r0c2, m.r0c3],
    ![m.r1c0, m.r1c1, m.r1c2, m.r1c3],
    ![m.r2c0, m.r2c1, m.r2c2, m.r2c3],
    ![m.r3c0, m.r3c1, m.r3c2, m.r3c3]]

/-- The all-zeroes `ComplexMatrix4`, i.e. the C initializer `= {0}`
(line 517). -/
def zeroMatrix4 : ComplexMatrix4 K :=
  ⟨0, 0, 0, 0, 0, 0, 0, 0, 0, 0, 0, 0, 0, 0, 0, 0⟩

/-- `getConjComplexProd` (line 499): returns `conj(a) * b`. -/
def getConjComplexProd (a b : Cmplx K) : Cmplx K :=
  ⟨a.re * b.re + a.im * b.im, a.re * b.im - a.im * b.re⟩

/-- `addConjComplexProd` (line 508): adds `conj(a)*b` to `dest`. -/
def addConjComplexProd (dest a b : Cmplx K) : Cmplx K :=
  dest + getConjComplexProd a b

/-- The fused conjugate-product is the conjugate times the second factor. -/
theorem getConjComplexProd_eq (a b : Cmplx K) :
    getConjComplexProd a b = getConjugateScalar a * b := by
  ext <;> simp [getConjComplexProd, getConjugateScalar] <;> ring

/-- The loop body of `getOneQubitKrausSuperoperator` (lines 519-545): adds
`conj(op) ⊗ op` into the running 4x4 superoperator, entry by entry exactly
as the source's sixteen `addConjComplexProd` calls. -/
def addOneQubitKrausOp (superOp : ComplexMatrix4 K) (op : ComplexMatrix2 K) :
    ComplexMatrix4 K where
  r0c0 := addConjComplexProd superOp.r0c0 op.r0c0 op.r0c0
  r0c1 := addConjComplexProd superOp.r0c1 op.r0c0 op.r0c1
  r1c0 := addConjComplexProd superOp.r1c0 op.r0c0 op.r1c0
  r1c1 := addConjComplexProd superOp.r1c1 op.r0c0 op.r1c1
  r0c2 := addConjComplexProd superOp.r0c2 op.r0c1 op.r0c0
  r0c3 := addConjComplexProd superOp.r0c3 op.r0c1 op.r0c1
  r1c2 := addConjComplexProd superOp.r1c2 op.r0c1 op.r1c0
  r1c3 := addConjComplexProd superOp.r1c3 op.r0c1 op.r1c1
  r2c0 := addConjComplexProd superOp.r2c0 op.r1c0 op.r0c0
  r2c1 := addConjComplexProd superOp.r2c1 op.r1c0 op.r0c1
  r3c0 := addConjComplexProd superOp.r3c0 op.r1c0 op.r1c0
  r3c1 := addConjComplexProd superOp.r3c1 op.r1c0 op.r1c1
  r2c2 := addConjComplexProd superOp.r2c2 op.r1c1 op.r0c0
  r2c3 := addConjComplexProd superOp.r2c3 op.r1c1 op.r0c1
  r3c2 := addConjComplexProd superOp.r3c2 op.r1c1 op.r1c0
  r3c3 := addConjComplexProd superOp.r3c3 op.r1c1 op.r1c1

/-- `getOneQubitKrausSuperoperator` (lines 515-548). -/
def getOneQubitKrausSuperoperator (ops : List (ComplexMatrix2 K)) : ComplexMatrix4 K :=
  ops.foldl addOneQubitKrausOp zeroMatrix4

/-- The doubled index `i*2 + k` of the one-qubit superoperator space. -/
def finIdx2 (i k : Fin 2) : Fin 4 :=
  ⟨i.val * 2 + k.val, by omega⟩

/-- The doubled index `i*4 + k` of the two-qubit superoperator space. -/
def finIdx4 (i k : Fin 4) : Fin 16 :=
  ⟨i.val * 4 + k.val, by omega⟩

/-- The block-row index `r / 4` of a doubled two-qubit index. -/
def divFin4 (r : Fin 16) : Fin 4 :=
  ⟨r.val / 4, by omega⟩

/-- The within-block index `r % 4` of a doubled two-qubit index. -/
def modFin4 (r : Fin 16) : Fin 4 :=
  ⟨r.val % 4, by omega⟩

/-- `r / 4` recovers the block row of `i*4 + k`. -/
theorem divFin4_finIdx4 (i k : Fin 4) : divFin4 (finIdx4 i k) = i := by
  apply Fin.ext
  simp only [divFin4, finIdx4]
  omega

/-- `r % 4` recovers the within-block index of `i*4 + k`. -/
theorem modFin4_finIdx4 (i k : Fin 4) : modFin4 (finIdx4 i k) = k := by
  apply Fin.ext
  simp only [modFin4, finIdx4]
  omega

/-- One `addOneQubitKrausOp` pass adds `conj(op[i][j])*op[k][l]` to entry
`(i*2+k, j*2+l)`. -/
theorem addOneQubitKrausOp_entry (superOp : ComplexMatrix4 K) (op : ComplexMatrix2 K)
    (i j k l : Fin 2) :
    m4get (addOneQubitKrausOp superOp op) (finIdx2 i k) (finIdx2 j l) =
      m4get superOp (finIdx2 i k) (finIdx2 j l) +
        getConjComplexProd (m2get op i j) (m2get op k l) := by
  fin_cases i <;> fin_cases j <;> fin_cases k <;> fin_cases l <;> rfl

/-- All sixteen entries of `zeroMatrix4` are zero. -/
theorem zeroMatrix4_entry (r c : Fin 4) : m4get (zeroMatrix4 : ComplexMatrix4 K) r c = 0 := by
  fin_cases r <;> fin_cases c <;> rfl

/-- Folding `addOneQubitKrausOp` accumulates the per-operator
conjugate-products entrywise. -/
theorem oneQubitKrausSuperoperator_foldl_entry (ops : List (ComplexMatrix2 K))
    (superOp : ComplexMatrix4 K) (i j k l : Fin 2) :
    m4get (ops.foldl addOneQubitKrausOp superOp) (finIdx2 i k) (finIdx2 j l) =
      m4get superOp (finIdx2 i k) (finIdx2 j l) +
        (ops.map fun op => getConjComplexProd (m2get op i j) (m2get op k l)).sum := by
  induction ops generalizing superOp with
  | nil => simp
  | cons hd tl ih =>
      simp only [List.foldl_cons, List.map_cons, List.sum_cons]
      rw [ih, addOneQubitKrausOp_entry]
      ring

/-- The loop body of `populateTwoQubitKrausSuperoperator` (lines 552-569).
The source's quadruple loop calls `addConjComplexProd` on entry
`(i*4+k, j*4+l)` for every `(i,j,k,l)`; since `(i,k) ↦ i*4+k` and
`(j,l) ↦ j*4+l` are bijections, each entry `(r, c)` is written exactly once
per operator, with `i = r/4`, `k = r%4`, `j = c/4`, `l = c%4`, which is the
pointwise form used here. -/
def addTwoQubitKrausOp (superOp : Fin 16 → Fin 16 → Cmplx K) (op : ComplexMatrix4 K) :
    Fin 16 → Fin 16 → Cmplx K :=
  fun r c =>
    addConjComplexProd (superOp r c)
      (m4get op (divFin4 r) (divFin4 c))
      (m4get op (modFin4 r) (modFin4 c))

/-- `populateTwoQubitKrausSuperoperator` (lines 550-571): adds
`conj(op) ⊗ op` to the passed superoperator for every Kraus operator.  The
`ComplexMatrixN` with `numQubits = 4` is modelled as its entry function
`Fin 16 → Fin 16 → Cmplx K`. -/
def populateTwoQubitKrausSuperoperator (superOp : Fin 16 → Fin 16 → Cmplx K)
    (ops : List (ComplexMatrix4 K)) : Fin 16 → Fin 16 → Cmplx K :=
  ops.foldl addTwoQubitKrausOp superOp

/-- The all-zeroes 16x16 matrix: the initializer that
`densmatr_applyTwoQubitKrausMap` (lines 600-608) passes to
`populateTwoQubitKrausSuperoperator`. -/
def zeroMatrix16 : Fin 16 → Fin 16 → Cmplx K :=
  fun _ _ => 0

/-- One `addTwoQubitKrausOp` pass adds `conj(op[i][j])*op[k][l]` to entry
`(i*4+k, j*4+l)`. -/
theorem addTwoQubitKrausOp_entry (superOp : Fin 16 → Fin 16 → Cmplx K)
    (op : ComplexMatrix4 K) (i j k l : Fin 4) :
    addTwoQubitKrausOp superOp op (finIdx4 i k) (finIdx4 j l) =
      superOp (finIdx4 i k) (finIdx4 j l) +
        getConjComplexProd (m4get op i j) (m4get op k l) := by
  unfold addTwoQubitKrausOp addConjComplexProd
  rw [divFin4_finIdx4, divFin4_finIdx4, modFin4_finIdx4, modFin4_finIdx4]

/-- Folding `addTwoQubitKrausOp` accumulates the per-operator
conjugate-products entrywise. -/
theorem twoQubitKrausSuperoperator_foldl_entry (ops : List (ComplexMatrix4 K))
    (superOp : Fin 16 → Fin 16 → Cmplx K) (i j k l : Fin 4) :
    populateTwoQubitKrausSuperoperator superOp ops (finIdx4 i k) (finIdx4 j l) =
      superOp (finIdx4 i k) (finIdx4 j l) +
        (ops.map fun op => getConjComplexProd (m4get op i j) (m4get op k l)).sum := by
  induction ops generalizing superOp with
  | nil => simp [populateTwoQubitKrausSuperoperator]
  | cons hd tl ih =>
      simp only [populateTwoQubitKrausSuperoperator, List.foldl_cons, List.map_cons,
        List.sum_cons] at ih ⊢
      rw [ih, addTwoQubitKrausOp_entry]
      ring

/-- C2: for every list of Kraus operators, the built superoperator `S`
satisfies, entrywise, `S[(i*d+k), (j*d+l)] = Σₙ conj(Kₙ[i][j]) * Kₙ[k][l]`
— i.e. `S = Σₙ conj(Kₙ) ⊗ Kₙ` on the doubled index space — both for
`d = 2` (`getOneQubitKrausSuperoperator`) and for `d = 4`
(`populateTwoQubitKrausSuperoperator` starting from the zero matrix). -/
theorem krausSuperoperator_entries :
    (∀ (ops : List (ComplexMatrix2 K)) (i j k l : Fin 2),
      m4get (getOneQubitKrausSuperoperator ops) (finIdx2 i k) (finIdx2 j l) =
        (ops.map fun op => getConjugateScalar (m2get op i j) * m2get op k l).sum) ∧
    (∀ (ops : List (ComplexMatrix4 K)) (i j k l : Fin 4),
      populateTwoQubitKrausSuperoperator zeroMatrix16 ops (finIdx4 i k) (finIdx4 j l) =
        (ops.map fun op => getConjugateScalar (m4get op i j) * m4get op k l).sum) := by
  constructor
  · intro ops i j k l
    rw [getOneQubitKrausSuperoperator, oneQubitKrausSuperoperator_foldl_entry,
      zeroMatrix4_entry, zero_add]
    simp only [getConjComplexProd_eq]
  · intro ops i j k l
    rw [twoQubitKrausSuperoperator_foldl_entry]
    simp only [zeroMatrix16, zero_add, getConjComplexProd_eq]

/-! ### Dimension-Doubling Bridge (lines 573-633)

A register is a dense amplitude array, modelled as a function from bit
assignments to amplitudes.  For an n-qubit density matrix viewed as a
2n-qubit statevector, the ket qubits `[0, n)` are labelled `Sum.inl i` and
the index-shifted bra qubits `[n, 2n)` are labelled `Sum.inr i`, so the C
target pair `(target, target + qureg.numQubitsRepresented)` becomes
`(Sum.inl target, Sum.inr target)`. -/

/-- A statevector over a family `I` of qubit labels: amplitudes indexed by
bit assignments. -/
def SvState (I : Type) (K : Type) : Type :=
  (I → Bool) → Cmplx K

/-- An n-qubit density matrix: entries `rho r c` indexed by the (row, ket)
and (column, bra) bit assignments. -/
def DmState (n : Nat) (K : Type) : Type :=
  (Fin n → Bool) → (Fin n → Bool) → Cmplx K

/-- A bit as a `Fin 2` index. -/
def bFin2 (b : Bool) : Fin 2 :=
  cond b 1 0

/-- The 4-dimensional basis index `2*hi + lo` formed from the bits of the
two target qubits (second target = high bit). -/
def boolPair (hi lo : Bool) : Fin 4 :=
  finIdx2 (bFin2 hi) (bFin2 lo)

/-- Modelled from the spec: the kernel primitive
`statevec_multiControlledTwoQubitUnitary` (declared in QuEST_internal.h,
implemented by the excluded per-amplitude execution kernels).  Per spec
§4.2/§6 it applies the 4x4 matrix `u` to the two target qubits — `q1` the
less significant bit of the 4-dimensional basis index — of every amplitude
whose control qubits are all 1, acting linearly on each amplitude group.
The C control bitmask is modelled as the set `ctrls` of control qubits. -/
def statevec_multiControlledTwoQubitUnitary [DecidableEq I] [Fintype I]
    (ctrls : I → Bool) (q1 q2 : I) (u : ComplexMatrix4 K) (psi : SvState I K) :
    SvState I K :=
  fun b =>
    if ∀ i, ctrls i = true → b i = true then
      m4get u (boolPair (b q2) (b q1)) (boolPair false false) *
          psi (Function.update (Function.update b q1 false) q2 false) +
        m4get u (boolPair (b q2) (b q1)) (boolPair false true) *
          psi (Function.update (Function.update b q1 true) q2 false) +
        m4get u (boolPair (b q2) (b q1)) (boolPair true false) *
          psi (Function.update (Function.update b q1 false) q2 true) +
        m4get u (boolPair (b q2) (b q1)) (boolPair true true) *
          psi (Function.update (Function.update b q1 true) q2 true)
    else psi b

/-- `densmatr_applyKrausSuperoperator` (lines 573-577): applies the built
4x4 superoperator as an uncontrolled two-qubit unitary on the doubled
indices `target` and `target + numQubitsRepresented`. -/
def densmatr_applyKrausSuperoperator (target : Fin n) (s : ComplexMatrix4 K)
    (qureg : SvState (Fin n ⊕ Fin n) K) : SvState (Fin n ⊕ Fin n) K :=
  statevec_multiControlledTwoQubitUnitary (fun _ => false)
    (Sum.inl target) (Sum.inr target) s qureg

/-- `densmatr_applyKrausMap` (lines 587-591): builds the one-qubit Kraus
superoperator and applies it via the bridge. -/
def densmatr_applyKrausMap (target : Fin n) (ops : List (ComplexMatrix2 K))
    (qureg : SvState (Fin n ⊕ Fin n) K) : SvState (Fin n ⊕ Fin n) K :=
  densmatr_applyKrausSuperoperator target (getOneQubitKrausSuperoperator ops) qureg

/-- The QuEST storage convention for a density matrix viewed as a 2n-qubit
statevector: the amplitude at bit assignment `b` is the entry whose row
(ket) bits are `b ∘ Sum.inl` and whose column (bra) bits are
`b ∘ Sum.inr`. -/
def dmToSv (rho : DmState n K) : SvState (Fin n ⊕ Fin n) K :=
  fun b => rho (fun i => b (Sum.inl i)) (fun i => b (Sum.inr i))

/-- The entrywise action `ρ ↦ K ρ K†` of a single 2x2 operator `op` on
qubit `t` of a density matrix:
`(K ρ K†)[r][c] = Σ_{r',c'} K[r_t][r'] * conj(K[c_t][c']) * ρ[r ∖ t:=r'][c ∖ t:=c']`. -/
def conjugateActionOnQubit (op : ComplexMatrix2 K) (t : Fin n) (rho : DmState n K) :
    DmState n K :=
  fun r c =>
    m2get op (bFin2 (r t)) (bFin2 false) *
        getConjugateScalar (m2get op (bFin2 (c t)) (bFin2 false)) *
        rho (Function.update r t false) (Function.update c t false) +
      m2get op (bFin2 (r t)) (bFin2 true) *
        getConjugateScalar (m2get op (bFin2 (c t)) (bFin2 false)) *
        rho (Function.update r t true) (Function.update c t false) +
      m2get op (bFin2 (r t)) (bFin2 false) *
        getConjugateScalar (m2get op (bFin2 (c t)) (bFin2 true)) *
        rho (Function.update r t false) (Function.update c t true) +
      m2get op (bFin2 (r t)) (bFin2 true) *
        getConjugateScalar (m2get op (bFin2 (c t)) (bFin2 true)) *
        rho (Function.update r t true) (Function.update c t true)

/-- The summed action `ρ ↦ Σₙ Kₙ ρ Kₙ†` of a Kraus set on qubit `t`. -/
def krausMapAction (ops : List (ComplexMatrix2 K)) (t : Fin n) (rho : DmState n K) :
    DmState n K :=
  fun r c => (ops.map fun op => conjugateActionOnQubit op t rho r c).sum

/-- Restricting a doubled-bit update at a ket label to the ket half
updates the ket assignment. -/
theorem update_inl_inl (b : (Fin n ⊕ Fin n) → Bool) (t : Fin n) (v1 v2 : Bool) :
    (fun i => Function.update (Function.update b (Sum.inl t) v1) (Sum.inr t) v2 (Sum.inl i)) =
      Function.update (fun i => b (Sum.inl i)) t v1 := by
  funext x
  rcases eq_or_ne x t with h | h
  · subst h
    rw [Function.update_noteq (by simp), Function.update_same, Function.update_same]
  · rw [Function.update_noteq (by simp), Function.update_noteq (by simp [h]),
      Function.update_noteq h]

/-- Restricting a doubled-bit update at a bra label to the bra half
updates the bra assignment. -/
theorem update_inl_inr (b : (Fin n ⊕ Fin n) → Bool) (t : Fin n) (v1 v2 : Bool) :
    (fun i => Function.update (Function.update b (Sum.inl t) v1) (Sum.inr t) v2 (Sum.inr i)) =
      Function.update (fun i => b (Sum.inr i)) t v2 := by
  funext x
  rcases eq_or_ne x t with h | h
  · subst h
    rw [Function.update_same, Function.update_same]
  · rw [Function.update_noteq (by simp [h]), Function.update_noteq (by simp),
      Function.update_noteq h]

/-- Summing a pointwise sum of two maps splits into two sums. -/
theorem list_sum_map_add {α : Type} (l : List α) (f g : α → Cmplx K) :
    (l.map fun x => f x + g x).sum = (l.map f).sum + (l.map g).sum := by
  induction l with
  | nil => simp
  | cons hd tl ih =>
      simp only [List.map_cons, List.sum_cons, ih]
      ring

/-- A common right factor distributes into a mapped sum. -/
theorem list_sum_map_mul_right {α : Type} (l : List α) (f : α → Cmplx K) (a : Cmplx K) :
    (l.map f).sum * a = (l.map fun x => f x * a).sum := by
  induction l with
  | nil => simp
  | cons hd tl ih =>
      simp only [List.map_cons, List.sum_cons, ← ih]
      ring

/-- The Dimension-Doubling Bridge realises the Kraus map: applying the
built one-qubit superoperator to the doubled statevector of `ρ` yields the
doubled statevector of `Σₙ Kₙ ρ Kₙ†`. -/
theorem densmatr_applyKrausMap_action (t : Fin n) (ops : List (ComplexMatrix2 K))
    (rho : DmState n K) :
    densmatr_applyKrausMap t ops (dmToSv rho) = dmToSv (krausMapAction ops t rho) := by
  funext b
  simp only [densmatr_applyKrausMap, densmatr_applyKrausSuperoperator,
    statevec_multiControlledTwoQubitUnitary, dmToSv, krausMapAction,
    getOneQubitKrausSuperoperator]
  rw [if_pos (fun i h => absurd h (by simp))]
  simp only [update_inl_inl, update_inl_inr, boolPair,
    oneQubitKrausSuperoperator_foldl_entry, zeroMatrix4_entry, zero_add]
  rw [list_sum_map_mul_right, list_sum_map_mul_right, list_sum_map_mul_right,
    list_sum_map_mul_right, ← list_sum_map_add, ← list_sum_map_add, ← list_sum_map_add]
  congr 1
  congr 1
  funext op
  simp only [conjugateActionOnQubit, getConjComplexProd_eq]
  ring

/-- Unitarity of a 2x2 matrix, stated entrywise as `U†U = I` with the
source's conjugate-product:
`(U†U)[j][l] = Σᵢ conj(U[i][j])·U[i][l]`. -/
def IsUnitary2 (m : ComplexMatrix2 K) : Prop :=
  getConjComplexProd m.r0c0 m.r0c0 + getConjComplexProd m.r1c0 m.r1c0 = 1 ∧
  getConjComplexProd m.r0c0 m.r0c1 + getConjComplexProd m.r1c0 m.r1c1 = 0 ∧
  getConjComplexProd m.r0c1 m.r0c0 + getConjComplexProd m.r1c1 m.r1c0 = 0 ∧
  getConjComplexProd m.r0c1 m.r0c1 + getConjComplexProd m.r1c1 m.r1c1 = 1

instance (m : ComplexMatrix2 K) : Decidable (IsUnitary2 m) := by
  unfold IsUnitary2
  infer_instance

/-- C3: for every n-qubit density matrix `ρ`, target qubit `t`, and single
unitary Kraus operator `K` (numOps = 1), applying the Kraus map via the
Dimension-Doubling Bridge (`densmatr_applyKrausMap`, which applies the
built superoperator as an uncontrolled two-qubit unitary on doubled
indices `t` and `t+n`) transforms the state exactly as `ρ → K ρ K†`. -/
theorem densmatr_applyKrausMap_single_unitary (t : Fin n) (op : ComplexMatrix2 K)
    (rho : DmState n K) (hu : IsUnitary2 op) :
    densmatr_applyKrausMap t [op] (dmToSv rho) = dmToSv (conjugateActionOnQubit op t rho) := by
  rw [densmatr_applyKrausMap_action]
  have h : krausMapAction [op] t rho = conjugateActionOnQubit op t rho := by
    funext r c
    simp [krausMapAction]
  rw [h]

/-- Witness for C3 at `n = 1`, `t = 0`, `K` the identity, `ρ` constant. -/
theorem densmatr_applyKrausMap_single_unitary_witness :
    IsUnitary2 (⟨1, 0, 0, 1⟩ : ComplexMatrix2 ℚ) ∧
    densmatr_applyKrausMap (0 : Fin 1) [(⟨1, 0, 0, 1⟩ : ComplexMatrix2 ℚ)]
        (dmToSv (fun _ _ => 1)) =
      dmToSv (conjugateActionOnQubit (⟨1, 0, 0, 1⟩ : ComplexMatrix2 ℚ) (0 : Fin 1)
        (fun _ _ => 1)) := by
  have hu : IsUnitary2 (⟨1, 0, 0, 1⟩ : ComplexMatrix2 ℚ) := by
    refine ⟨?_, ?_, ?_, ?_⟩ <;> (ext <;> simp [getConjComplexProd])
  exact ⟨hu, densmatr_applyKrausMap_single_unitary (0 : Fin 1) ⟨1, 0, 0, 1⟩ (fun _ _ => 1) hu⟩

/-- `densmatr_oneQubitPauliError` (lines 614-633): converts the three Pauli
error probabilities into the four scaled Pauli Kraus operators
`{√(1-px-py-pz)·I, √px·X, √py·Y, √pz·Z}` and delegates to
`densmatr_applyKrausMap`.  The local C array `facs[4]` is rendered as four
local bindings. -/
noncomputable def densmatr_oneQubitPauliError (qubit : Fin n) (probX probY probZ : ℝ)
    (qureg : SvState (Fin n ⊕ Fin n) ℝ) : SvState (Fin n ⊕ Fin n) ℝ :=
  let facs0 := Real.sqrt (1 - (probX + probY + probZ))
  let facs1 := Real.sqrt probX
  let facs2 := Real.sqrt probY
  let facs3 := Real.sqrt probZ
  let ops : List (ComplexMatrix2 ℝ) :=
    [⟨⟨facs0, 0⟩, 0, 0, ⟨facs0, 0⟩⟩,
     ⟨0, ⟨facs1, 0⟩, ⟨facs1, 0⟩, 0⟩,
     ⟨0, ⟨0, -facs2⟩, ⟨0, facs2⟩, 0⟩,
     ⟨⟨facs3, 0⟩, 0, 0, ⟨-facs3, 0⟩⟩]
  densmatr_applyKrausMap qubit ops qureg

/-- C4: with `probX = probY = probZ = 0` the Pauli-error channel builder
leaves the register unchanged (the Kraus set degenerates to the identity
plus three zero matrices), and with `probX = 1, probY = probZ = 0` it
effects the deterministic bit-flip `ρ → X ρ X` on the target qubit (the
entry `ρ[r][c]` moves to `ρ[r ∖ t:=!r_t][c ∖ t:=!c_t]`). -/
theorem densmatr_oneQubitPauliError_identity_and_bitflip (t : Fin n) (rho : DmState n ℝ) :
    densmatr_oneQubitPauliError t 0 0 0 (dmToSv rho) = dmToSv rho ∧
    densmatr_oneQubitPauliError t 1 0 0 (dmToSv rho) =
      dmToSv (fun r c =>
        rho (Function.update r t (!(r t))) (Function.update c t (!(c t)))) := by
  constructor
  · simp only [densmatr_oneQubitPauliError]
    rw [show (1 : ℝ) - (0 + 0 + 0) = 1 by norm_num, Real.sqrt_one]
    simp only [Real.sqrt_zero, neg_zero]
    rw [densmatr_applyKrausMap_action]
    have h : krausMapAction
        [(⟨⟨1, 0⟩, 0, 0, ⟨1, 0⟩⟩ : ComplexMatrix2 ℝ),
         ⟨0, ⟨0, 0⟩, ⟨0, 0⟩, 0⟩, ⟨0, ⟨0, 0⟩, ⟨0, 0⟩, 0⟩, ⟨⟨0, 0⟩, 0, 0, ⟨0, 0⟩⟩]
        t rho = rho := by
      funext r c
      have hur : Function.update r t (r t) = r := Function.update_eq_self t r
      have huc : Function.update c t (c t) = c := Function.update_eq_self t c
      cases hr : r t <;> cases hc : c t <;>
        (rw [hr] at hur; rw [hc] at huc;
         simp only [krausMapAction, conjugateActionOnQubit, List.map_cons, List.map_nil,
           List.sum_cons, List.sum_nil, m2get, bFin2, getConjugateScalar, hr, hc, hur, huc];
         ext <;> simp)
    rw [h]
  · simp only [densmatr_oneQubitPauliError]
    rw [show (1 : ℝ) - (1 + 0 + 0) = 0 by norm_num, Real.sqrt_one]
    simp only [Real.sqrt_zero, neg_zero]
    rw [densmatr_applyKrausMap_action]
    have h : krausMapAction
        [(⟨⟨0, 0⟩, 0, 0, ⟨0, 0⟩⟩ : ComplexMatrix2 ℝ),
         ⟨0, ⟨1, 0⟩, ⟨1, 0⟩, 0⟩, ⟨0, ⟨0, 0⟩, ⟨0, 0⟩, 0⟩, ⟨⟨0, 0⟩, 0, 0, ⟨0, 0⟩⟩]
        t rho = fun r c =>
          rho (Function.update r t (!(r t))) (Function.update c t (!(c t))) := by
      funext r c
      cases hr : r t <;> cases hc : c t <;>
        (simp only [krausMapAction, conjugateActionOnQubit, List.map_cons, List.map_nil,
           List.sum_cons, List.sum_nil, m2get, bFin2, getConjugateScalar, hr, hc,
           Bool.not_false, Bool.not_true];
         ext <;> simp)
    rw [h]

/-! ### Outcome Sampler (`generateMeasurementOutcome`, lines 145-163)

`REAL_EPS` is defined in the excluded precision header; it is modelled as a
parameter `eps` (a machine epsilon, so in particular `0 < eps ≤ 1/2`).  The
process-wide Mersenne-Twister source consumed by `genrand_real1()` is
modelled as a stream `rng : ℕ → K` together with a read position; drawing a
sample reads `rng pos` and advances the position. -/

/-- `generateMeasurementOutcome` (lines 145-163): returns the sampled
outcome, the realized probability of that outcome, and the new position of
the random stream. -/
def generateMeasurementOutcome (eps : K) (rng : Nat → K) (pos : Nat) (zeroProb : K) :
    Nat × K × Nat :=
  let op : Nat × Nat :=
    if zeroProb < eps then (1, pos)
    else if 1 - zeroProb < eps then (0, pos)
    else (if rng pos > zeroProb then 1 else 0, pos + 1)
  let outcomeProb := if op.1 = 0 then zeroProb else 1 - zeroProb
  (op.1, outcomeProb, op.2)

/-- C5: the Outcome Sampler forces outcome 1 (with realized probability
`1 - zeroProb`) without consuming the random source whenever `zeroProb` is
within `eps` of 0, forces outcome 0 (with realized probability `zeroProb`)
without consuming it whenever `zeroProb` is within `eps` of 1; in
particular at `zeroProb = 0` it returns outcome 1 with realized
probability exactly 1 and at `zeroProb = 1` outcome 0 with realized
probability exactly 1, independent of the random stream; and otherwise it
draws one uniform sample and compares it against `zeroProb`. -/
theorem generateMeasurementOutcome_spec (eps : K) (rng : Nat → K) (pos : Nat)
    (zeroProb : K) (heps0 : 0 < eps) (heps1 : eps ≤ 1 / 2) :
    (zeroProb < eps →
      generateMeasurementOutcome eps rng pos zeroProb = (1, 1 - zeroProb, pos)) ∧
    (1 - zeroProb < eps →
      generateMeasurementOutcome eps rng pos zeroProb = (0, zeroProb, pos)) ∧
    (zeroProb = 0 →
      generateMeasurementOutcome eps rng pos zeroProb = (1, 1, pos)) ∧
    (zeroProb = 1 →
      generateMeasurementOutcome eps rng pos zeroProb = (0, 1, pos)) ∧
    (¬ zeroProb < eps → ¬ 1 - zeroProb < eps →
      generateMeasurementOutcome eps rng pos zeroProb =
        ((if rng pos > zeroProb then 1 else 0),
         (if (if rng pos > zeroProb then 1 else 0) = 0 then zeroProb else 1 - zeroProb),
         pos + 1)) := by
  refine ⟨?_, ?_, ?_, ?_, ?_⟩
  · intro h
    simp [generateMeasurementOutcome, h]
  · intro h
    have hnot : ¬ zeroProb < eps := by
      intro hlt
      linarith
    simp [generateMeasurementOutcome, h, hnot]
  · intro h
    subst h
    simp [generateMeasurementOutcome, heps0]
  · intro h
    subst h
    have hnot : ¬ (1 : K) < eps := by linarith
    simp [generateMeasurementOutcome, hnot, heps0]
  · intro h1 h2
    simp only [generateMeasurementOutcome, if_neg h1, if_neg h2]

/-- Witness for C5 at `K = ℚ`, `eps = 1/1000000`, a constant random
stream, and `zeroProb = 1`. -/
theorem generateMeasurementOutcome_spec_witness :
    ((0 : ℚ) < 1 / 1000000 ∧ (1 / 1000000 : ℚ) ≤ 1 / 2) ∧
    ((1 : ℚ) = 1 →
      generateMeasurementOutcome (1 / 1000000 : ℚ) (fun _ => 1 / 2) 0 1 = (0, 1, 0)) := by
  have h := generateMeasurementOutcome_spec (K := ℚ) (1 / 1000000) (fun _ => 1 / 2) 0 1
    (by norm_num) (by norm_num)
  exact ⟨⟨by norm_num, by norm_num⟩, h.2.2.2.1⟩

/-! ### Square-root-SWAP gate (lines 370-394)

For this 2-qubit claim the register is modelled with explicit bit pairs
`(bit 0, bit 1)`.  The kernel primitives `statevec_controlledNot` and
`statevec_controlledUnitary` are external collaborators, modelled from the
spec (§4.2/§6). -/

/-- Amplitudes of a 2-qubit register, indexed by the bits of qubits 0 and 1. -/
def SvState2 (K : Type) : Type :=
  Bool × Bool → Cmplx K

/-- The bit of qubit `q` in a 2-qubit bit assignment. -/
def getBit2 (b : Bool × Bool) (q : Fin 2) : Bool :=
  if q = 0 then b.1 else b.2

/-- Setting the bit of qubit `q` in a 2-qubit bit assignment. -/
def setBit2 (b : Bool × Bool) (q : Fin 2) (v : Bool) : Bool × Bool :=
  if q = 0 then (v, b.2) else (b.1, v)

/-- Modelled from the spec: the kernel primitive `statevec_controlledNot`
(declared in QuEST_internal.h) — flips the target-qubit bit of every
amplitude whose control bit is 1 (a self-inverse permutation of the
amplitudes). -/
def statevec_controlledNot (control target : Fin 2) (psi : SvState2 K) : SvState2 K :=
  fun b => psi (if getBit2 b control then setBit2 b target (!getBit2 b target) else b)

/-- Modelled from the spec: the kernel primitive
`statevec_controlledUnitary` (declared in QuEST_internal.h) — applies the
2x2 matrix `u` to the target qubit of every amplitude whose control bit
is 1, acting linearly on each amplitude pair. -/
def statevec_controlledUnitary (control target : Fin 2) (u : ComplexMatrix2 K)
    (psi : SvState2 K) : SvState2 K :=
  fun b =>
    if getBit2 b control then
      m2get u (bFin2 (getBit2 b target)) (bFin2 false) * psi (setBit2 b target false) +
        m2get u (bFin2 (getBit2 b target)) (bFin2 true) * psi (setBit2 b target true)
    else psi b

/-- `statevec_sqrtSwapGate` (lines 370-381): CNOT(qb1→qb2), then the
controlled-U with `U = ½·[[1+i, 1−i],[1−i, 1+i]]` (control qb2, target
qb1), then CNOT(qb1→qb2). -/
def statevec_sqrtSwapGate (qb1 qb2 : Fin 2) (psi : SvState2 K) : SvState2 K :=
  let u : ComplexMatrix2 K :=
    ⟨⟨1 / 2, 1 / 2⟩, ⟨1 / 2, -(1 / 2)⟩, ⟨1 / 2, -(1 / 2)⟩, ⟨1 / 2, 1 / 2⟩⟩
  statevec_controlledNot qb1 qb2
    (statevec_controlledUnitary qb2 qb1 u
      (statevec_controlledNot qb1 qb2 psi))

/-- The closed-form SWAP matrix on two qubits
(`[[1,0,0,0],[0,0,1,0],[0,1,0,0],[0,0,0,1]]` on basis index
`2*bit(qb2) + bit(qb1)`). -/
def swapMatrix4 : ComplexMatrix4 K :=
  ⟨1, 0, 0, 0,
   0, 0, 1, 0,
   0, 1, 0, 0,
   0, 0, 0, 1⟩

/-- Application of a closed-form 4x4 two-qubit matrix to a 2-qubit
register (`qb1` the less significant basis index bit). -/
def twoQubitMatrixApply (qb1 qb2 : Fin 2) (u : ComplexMatrix4 K) (psi : SvState2 K) :
    SvState2 K :=
  fun b =>
    m4get u (boolPair (getBit2 b qb2) (getBit2 b qb1)) (boolPair false false) *
        psi (setBit2 (setBit2 b qb1 false) qb2 false) +
      m4get u (boolPair (getBit2 b qb2) (getBit2 b qb1)) (boolPair false true) *
        psi (setBit2 (setBit2 b qb1 true) qb2 false) +
      m4get u (boolPair (getBit2 b qb2) (getBit2 b qb1)) (boolPair true false) *
        psi (setBit2 (setBit2 b qb1 false) qb2 true) +
      m4get u (boolPair (getBit2 b qb2) (getBit2 b qb1)) (boolPair true true) *
        psi (setBit2 (setBit2 b qb1 true) qb2 true)

/-- C9: applying `statevec_sqrtSwapGate` twice to any 2-qubit register with
distinct target qubits equals one full SWAP of the two qubits, verified
against the closed-form SWAP matrix — here with global phase exactly 1 (a
special case of equality up to global phase). -/
theorem sqrtSwapGate_twice_eq_swap (qb1 qb2 : Fin 2) (h : qb1 ≠ qb2) (psi : SvState2 K) :
    statevec_sqrtSwapGate qb1 qb2 (statevec_sqrtSwapGate qb1 qb2 psi) =
      twoQubitMatrixApply qb1 qb2 swapMatrix4 psi := by
  funext b
  obtain ⟨x, y⟩ := b
  fin_cases qb1 <;> fin_cases qb2 <;> first
  | exact absurd rfl h
  | (cases x <;> cases y <;>
      (simp only [statevec_sqrtSwapGate, statevec_controlledNot, statevec_controlledUnitary,
        twoQubitMatrixApply, swapMatrix4, getBit2, setBit2, m2get, m4get, bFin2, boolPair,
        finIdx2, Fin.isValue, if_true, if_false];
       norm_num;
       try (ext <;> simp <;> ring)))

/-- Witness for C9 at `K = ℚ`, `qb1 = 0`, `qb2 = 1`, and a concrete state. -/
theorem sqrtSwapGate_twice_eq_swap_witness :
    ((0 : Fin 2) ≠ (1 : Fin 2)) ∧
    statevec_sqrtSwapGate (0 : Fin 2) 1
        (statevec_sqrtSwapGate (0 : Fin 2) 1
          (fun b => (⟨if b.1 then 2 else 3, if b.2 then 5 else 7⟩ : Cmplx ℚ))) =
      twoQubitMatrixApply (0 : Fin 2) 1 swapMatrix4
        (fun b => (⟨if b.1 then 2 else 3, if b.2 then 5 else 7⟩ : Cmplx ℚ)) :=
  ⟨by decide,
    sqrtSwapGate_twice_eq_swap (0 : Fin 2) 1 (by decide)
      (fun b => (⟨if b.1 then 2 else 3, if b.2 then 5 else 7⟩ : Cmplx ℚ))⟩

/-! ### Pauli Expectation Evaluator (lines 435-472)

`statevec_calcExpecValProd` mutates only the caller-supplied workspace
register; the claim is a frame property over the two registers touched by
the function.  The registers live in a small heap `RegId → S`, and every
kernel primitive the function calls is abstract (an arbitrary function
record), mutating exactly the register it is invoked on — mirroring that
the C code passes `workspace` to every mutating call and `qureg` only to
`statevec_cloneQureg` (as source) and `statevec_calcInnerProduct` (as a
read). -/

/-- The two registers `statevec_calcExpecValProd` touches. -/
inductive RegId where
  | qureg
  | workspace
deriving DecidableEq

/-- Abstract record of the kernel primitives called by the Pauli
Expectation Evaluator.  `cloneQureg dst src` returns the new contents of
the destination register. -/
structure ExpecKernels (S : Type) (K : Type) where
  cloneQureg : S → S → S
  pauliX : S → Nat → S
  pauliY : S → Nat → S
  phaseShiftByTerm : S → Nat → Cmplx K → S
  calcTotalProb : S → K
  calcInnerProduct : S → S → Cmplx K

/-- Applies an in-place kernel operation to the register `r` of the heap. -/
def applyAt (h : RegId → S) (r : RegId) (f : S → S) : RegId → S :=
  Function.update h r (f (h r))

/-- `statevec_pauliZ` (lines 244-249): phase multiplication by the fixed
term `-1 + 0i`. -/
def statevec_pauliZ (ker : ExpecKernels S K) (st : S) (targetQubit : Nat) : S :=
  ker.phaseShiftByTerm st targetQubit ⟨-1, 0⟩

/-- One iteration of the Pauli-application loop of
`statevec_calcExpecValProd` (lines 440-448): applies the tagged Pauli
operator to the workspace register (`PAULI_I` applies no operation). -/
def expecValProdStep (ker : ExpecKernels S K) (h : RegId → S)
    (qp : Nat × pauliOpType) : RegId → S :=
  match qp.2 with
  | .PAULI_I => h
  | .PAULI_X => applyAt h .workspace (fun ws => ker.pauliX ws qp.1)
  | .PAULI_Y => applyAt h .workspace (fun ws => ker.pauliY ws qp.1)
  | .PAULI_Z => applyAt h .workspace (fun ws => statevec_pauliZ ker ws qp.1)

/-- `statevec_calcExpecValProd` (lines 435-458): clones `qureg` into the
workspace, applies the non-Identity Paulis of the string to the workspace,
then reads either the workspace's total probability (density-matrix case)
or the real part of the inner product of workspace and `qureg`
(statevector case).  Returns the value and the final heap. -/
def statevec_calcExpecValProd (ker : ExpecKernels S K) (isDensityMatrix : Bool)
    (h : RegId → S) (targetQubits : List Nat) (pauliCodes : List pauliOpType) :
    K × (RegId → S) :=
  let h1 := applyAt h .workspace (fun ws => ker.cloneQureg ws (h .qureg))
  let h2 := (targetQubits.zip pauliCodes).foldl (expecValProdStep ker) h1
  let value :=
    if isDensityMatrix then ker.calcTotalProb (h2 .workspace)
    else (ker.calcInnerProduct (h2 .workspace) (h2 .qureg)).re
  (value, h2)

/-- `statevec_calcExpecValSum` (lines 460-472): evaluates each Pauli-string
term of a weighted sum with `statevec_calcExpecValProd` over all qubits
`0..numQb-1`, accumulating the coefficient-weighted results (the heap is
threaded through, since each call re-clones and mutates the workspace). -/
def statevec_calcExpecValSum (ker : ExpecKernels S K) (isDensityMatrix : Bool)
    (h : RegId → S) (numQb : Nat) (allCodes : List pauliOpType) (termCoeffs : List K) :
    K × (RegId → S) :=
  let targs := List.range numQb
  termCoeffs.enum.foldl
    (fun acc tc =>
      let r := statevec_calcExpecValProd ker isDensityMatrix acc.2 targs
        ((allCodes.drop (tc.1 * numQb)).take numQb)
      (acc.1 + tc.2 * r.1, r.2))
    (0, h)

/-- A kernel operation applied to the workspace register leaves the qureg
register unchanged. -/
theorem applyAt_workspace_qureg (h : RegId → S) (f : S → S) :
    applyAt h .workspace f .qureg = h .qureg := by
  simp [applyAt, Function.update]

/-- The whole Pauli-application loop leaves the qureg register unchanged. -/
theorem expecValProd_foldl_qureg (ker : ExpecKernels S K)
    (l : List (Nat × pauliOpType)) (h : RegId → S) :
    (l.foldl (expecValProdStep ker) h) .qureg = h .qureg := by
  induction l generalizing h with
  | nil => rfl
  | cons hd tl ih =>
      rw [List.foldl_cons, ih]
      rcases hd with ⟨q, p⟩
      cases p <;> simp only [expecValProdStep] <;>
        first
          | rfl
          | exact applyAt_workspace_qureg h _

/-- C10 (part): `statevec_calcExpecValProd` leaves the original input
register unchanged, for every abstract kernel implementation. -/
theorem calcExpecValProd_preserves_qureg (ker : ExpecKernels S K)
    (isDensityMatrix : Bool) (h : RegId → S) (targetQubits : List Nat)
    (pauliCodes : List pauliOpType) :
    (statevec_calcExpecValProd ker isDensityMatrix h targetQubits pauliCodes).2 .qureg =
      h .qureg := by
  simp only [statevec_calcExpecValProd]
  rw [expecValProd_foldl_qureg]
  exact applyAt_workspace_qureg h _

/-- C10: for every register, Pauli string, and workspace (and every kernel
implementation), the Pauli Expectation Evaluator leaves the original input
register completely unchanged — all operators touch only the workspace
register, both per term (`statevec_calcExpecValProd`) and across a whole
weighted sum (`statevec_calcExpecValSum`). -/
theorem calcExpecVal_preserves_qureg (ker : ExpecKernels S K) (isDensityMatrix : Bool)
    (h : RegId → S) :
    (∀ (targetQubits : List Nat) (pauliCodes : List pauliOpType),
      (statevec_calcExpecValProd ker isDensityMatrix h targetQubits pauliCodes).2 .qureg =
        h .qureg) ∧
    (∀ (numQb : Nat) (allCodes : List pauliOpType) (termCoeffs : List K),
      (statevec_calcExpecValSum ker isDensityMatrix h numQb allCodes termCoeffs).2 .qureg =
        h .qureg) := by
  refine ⟨fun tq pc => calcExpecValProd_preserves_qureg ker isDensityMatrix h tq pc, ?_⟩
  intro numQb allCodes termCoeffs
  simp only [statevec_calcExpecValSum]
  generalize (0 : K) = v0
  generalize termCoeffs.enum = l
  induction l generalizing v0 h with
  | nil => rfl
  | cons hd tl ih =>
      rw [List.foldl_cons]
      rw [ih]
      exact calcExpecValProd_preserves_qureg ker isDensityMatrix h _ _

/-! ### Rotation Codec (lines 60-132) -/

/-- The source's `Vector` 3D axis type (QuEST.h), over `ℝ`. -/
@[ext]
structure Vector where
  x : ℝ
  y : ℝ
  z : ℝ

/-- `getVectorMagnitude` (line 60). -/
noncomputable def getVectorMagnitude (vec : Vector) : ℝ :=
  Real.sqrt (vec.x * vec.x + vec.y * vec.y + vec.z * vec.z)

/-- `getUnitVector` (lines 64-69). -/
noncomputable def getUnitVector (vec : Vector) : Vector :=
  ⟨vec.x / getVectorMagnitude vec, vec.y / getVectorMagnitude vec,
    vec.z / getVectorMagnitude vec⟩

/-- `getComplexPairFromRotation` (lines 98-105): the (alpha, beta) pair of
the rotation by `angle` about `axis`. -/
noncomputable def getComplexPairFromRotation (angle : ℝ) (axis : Vector) :
    Cmplx ℝ × Cmplx ℝ :=
  let unitAxis := getUnitVector axis
  (⟨Real.cos (angle / 2), -(Real.sin (angle / 2) * unitAxis.z)⟩,
   ⟨Real.sin (angle / 2) * unitAxis.y, -(Real.sin (angle / 2) * unitAxis.x)⟩)

/-- The squared magnitude `|c|² = re² + im²` of a complex value. -/
def cmplxNormSq (c : Cmplx K) : K :=
  c.re * c.re + c.im * c.im

/-- A non-zero axis has positive squared magnitude. -/
theorem axis_sq_pos (axis : Vector) (h : axis ≠ ⟨0, 0, 0⟩) :
    0 < axis.x * axis.x + axis.y * axis.y + axis.z * axis.z := by
  rcases (add_nonneg (add_nonneg (mul_self_nonneg axis.x) (mul_self_nonneg axis.y))
      (mul_self_nonneg axis.z)).lt_or_eq
    with hlt | heq
  · exact hlt
  · exfalso
    apply h
    have hx : axis.x = 0 := by
      nlinarith [mul_self_nonneg axis.x, mul_self_nonneg axis.y, mul_self_nonneg axis.z]
    have hy : axis.y = 0 := by
      nlinarith [mul_self_nonneg axis.x, mul_self_nonneg axis.y, mul_self_nonneg axis.z]
    have hz : axis.z = 0 := by
      nlinarith [mul_self_nonneg axis.x, mul_self_nonneg axis.y, mul_self_nonneg axis.z]
    exact Vector.ext hx hy hz

/-- C6: for every angle and non-zero axis, the rotation-to-pair encoder
produces `alpha = cos(θ/2) − i·sin(θ/2)·a_z` and
`beta = sin(θ/2)·a_y − i·sin(θ/2)·a_x` for the normalized axis `a`, and
this pair satisfies `|alpha|² + |beta|² = 1`. -/
theorem getComplexPairFromRotation_spec (angle : ℝ) (axis : Vector)
    (h : axis ≠ ⟨0, 0, 0⟩) :
    (getComplexPairFromRotation angle axis).1 =
      ⟨Real.cos (angle / 2), -(Real.sin (angle / 2) * (getUnitVector axis).z)⟩ ∧
    (getComplexPairFromRotation angle axis).2 =
      ⟨Real.sin (angle / 2) * (getUnitVector axis).y,
        -(Real.sin (angle / 2) * (getUnitVector axis).x)⟩ ∧
    cmplxNormSq (getComplexPairFromRotation angle axis).1 +
      cmplxNormSq (getComplexPairFromRotation angle axis).2 = 1 := by
  have hs := axis_sq_pos axis h
  have hmag : 0 < getVectorMagnitude axis := Real.sqrt_pos.mpr hs
  have hmagsq : getVectorMagnitude axis * getVectorMagnitude axis =
      axis.x * axis.x + axis.y * axis.y + axis.z * axis.z :=
    Real.mul_self_sqrt hs.le
  refine ⟨rfl, rfl, ?_⟩
  simp only [getComplexPairFromRotation, getUnitVector, cmplxNormSq]
  have key : axis.x / getVectorMagnitude axis * (axis.x / getVectorMagnitude axis) +
      axis.y / getVectorMagnitude axis * (axis.y / getVectorMagnitude axis) +
      axis.z / getVectorMagnitude axis * (axis.z / getVectorMagnitude axis) = 1 := by
    field_simp
    linarith [hmagsq]
  calc
    Real.cos (angle / 2) * Real.cos (angle / 2) +
          -(Real.sin (angle / 2) * (axis.z / getVectorMagnitude axis)) *
            -(Real.sin (angle / 2) * (axis.z / getVectorMagnitude axis)) +
        (Real.sin (angle / 2) * (axis.y / getVectorMagnitude axis) *
            (Real.sin (angle / 2) * (axis.y / getVectorMagnitude axis)) +
          -(Real.sin (angle / 2) * (axis.x / getVectorMagnitude axis)) *
            -(Real.sin (angle / 2) * (axis.x / getVectorMagnitude axis))) =
        Real.cos (angle / 2) * Real.cos (angle / 2) +
          Real.sin (angle / 2) * Real.sin (angle / 2) *
            (axis.x / getVectorMagnitude axis * (axis.x / getVectorMagnitude axis) +
              axis.y / getVectorMagnitude axis * (axis.y / getVectorMagnitude axis) +
              axis.z / getVectorMagnitude axis * (axis.z / getVectorMagnitude axis)) := by
      ring
    _ = 1 := by
      rw [key, mul_one, ← Real.sin_sq_add_cos_sq (angle / 2)]
      ring

/-- Witness for C6 at `angle = 0`, `axis = (0,0,1)`. -/
theorem getComplexPairFromRotation_spec_witness :
    ((⟨0, 0, 1⟩ : Vector) ≠ ⟨0, 0, 0⟩) ∧
    ((getComplexPairFromRotation 0 ⟨0, 0, 1⟩).1 =
      ⟨Real.cos (0 / 2), -(Real.sin (0 / 2) * (getUnitVector ⟨0, 0, 1⟩).z)⟩ ∧
    (getComplexPairFromRotation 0 ⟨0, 0, 1⟩).2 =
      ⟨Real.sin (0 / 2) * (getUnitVector ⟨0, 0, 1⟩).y,
        -(Real.sin (0 / 2) * (getUnitVector ⟨0, 0, 1⟩).x)⟩ ∧
    cmplxNormSq (getComplexPairFromRotation 0 ⟨0, 0, 1⟩).1 +
      cmplxNormSq (getComplexPairFromRotation 0 ⟨0, 0, 1⟩).2 = 1) := by
  have hne : (⟨0, 0, 1⟩ : Vector) ≠ ⟨0, 0, 0⟩ :=
    fun hh => one_ne_zero (congrArg Vector.z hh)
  exact ⟨hne, getComplexPairFromRotation_spec 0 ⟨0, 0, 1⟩ hne⟩

/-- The embedding of the source's complex values into Mathlib's `ℂ`. -/
def toC (c : Cmplx ℝ) : ℂ :=
  ⟨c.re, c.im⟩

/-- C's `atan2(y, x)`: the argument of `x + i·y` (range `(-π, π]`, and 0 at
the origin, as in C). -/
noncomputable def atan2 (y x : ℝ) : ℝ :=
  Complex.arg ⟨x, y⟩

/-- `getZYZRotAnglesFromComplexPair` (lines 108-117): maps `U(alpha, beta)`
to `Rz(rz2)·Ry(ry)·Rz(rz1)`, returned as `(rz2, ry, rz1)`. -/
noncomputable def getZYZRotAnglesFromComplexPair (alpha beta : Cmplx ℝ) :
    ℝ × ℝ × ℝ :=
  let alphaMag := Real.sqrt (alpha.re * alpha.re + alpha.im * alpha.im)
  let ry := 2 * Real.arccos alphaMag
  let alphaPhase := atan2 alpha.im alpha.re
  let betaPhase := atan2 beta.im beta.re
  (-alphaPhase + betaPhase, ry, -alphaPhase - betaPhase)

/-- A 2x2 matrix over Mathlib's `ℂ`, rows `[[a, b], [c, d]]`, used to state
the rotation-reconstruction properties. -/
@[ext]
structure M2C where
  a : ℂ
  b : ℂ
  c : ℂ
  d : ℂ

/-- Matrix product of 2x2 complex matrices. -/
def m2cMul (p q : M2C) : M2C :=
  ⟨p.a * q.a + p.b * q.c, p.a * q.b + p.b * q.d,
   p.c * q.a + p.d * q.c, p.c * q.b + p.d * q.d⟩

/-- The standard `Rz(θ) = [[e^{−iθ/2}, 0], [0, e^{iθ/2}]]` rotation. -/
noncomputable def RzMat (θ : ℝ) : M2C :=
  ⟨Complex.exp (-(θ / 2 : ℝ) * Complex.I), 0, 0, Complex.exp ((θ / 2 : ℝ) * Complex.I)⟩

/-- The standard `Ry(θ) = [[cos(θ/2), −sin(θ/2)], [sin(θ/2), cos(θ/2)]]`
rotation. -/
noncomputable def RyMat (θ : ℝ) : M2C :=
  ⟨(Real.cos (θ / 2) : ℝ), -(Real.sin (θ / 2) : ℝ),
   (Real.sin (θ / 2) : ℝ), (Real.cos (θ / 2) : ℝ)⟩

/-- The special-unitary `U(alpha, beta) = [[alpha, −conj(beta)], [beta,
conj(alpha)]]` determined by a complex pair. -/
def uPairMatrix (alpha beta : Cmplx ℝ) : M2C :=
  ⟨toC alpha, -(starRingEnd ℂ) (toC beta), toC beta, (starRingEnd ℂ) (toC alpha)⟩

/-- Multiplication of a 2x2 complex matrix by the global phase `e^{iφ}`. -/
noncomputable def m2cPhaseMul (phi : ℝ) (m : M2C) : M2C :=
  ⟨Complex.exp ((phi : ℝ) * Complex.I) * m.a, Complex.exp ((phi : ℝ) * Complex.I) * m.b,
   Complex.exp ((phi : ℝ) * Complex.I) * m.c, Complex.exp ((phi : ℝ) * Complex.I) * m.d⟩

/-- Product of two unit-circle exponentials with real angles. -/
theorem exp_real_I_mul (u v : ℝ) :
    Complex.exp ((u : ℝ) * Complex.I) * Complex.exp ((v : ℝ) * Complex.I) =
      Complex.exp (((u + v : ℝ) : ℂ) * Complex.I) := by
  rw [← Complex.exp_add]
  push_cast
  ring_nf

/-- Polar decomposition of the conjugate:
`|z|·e^{−i·arg z} = conj z`. -/
theorem abs_mul_exp_neg_arg_mul_I (z : ℂ) :
    ((Complex.abs z : ℝ) : ℂ) * Complex.exp (((-Complex.arg z : ℝ) : ℂ) * Complex.I) =
      (starRingEnd ℂ) z := by
  conv_rhs => rw [← Complex.abs_mul_exp_arg_mul_I z]
  rw [map_mul, Complex.conj_ofReal, ← Complex.exp_conj, map_mul, Complex.conj_ofReal,
    Complex.conj_I]
  push_cast
  ring_nf

/-- The closed form of `Rz(−aP+bP) · [[c, −s], [s, c]] · Rz(−aP−bP)`. -/
theorem zyz_product_entries (aP bP c s : ℝ) :
    m2cMul (m2cMul (RzMat (-aP + bP)) (⟨(c : ℝ), -((s : ℝ) : ℂ), (s : ℝ), (c : ℝ)⟩ : M2C))
        (RzMat (-aP - bP)) =
      ⟨((c : ℝ) : ℂ) * Complex.exp (((aP : ℝ) : ℂ) * Complex.I),
       -(((s : ℝ) : ℂ) * Complex.exp (((-bP : ℝ) : ℂ) * Complex.I)),
       ((s : ℝ) : ℂ) * Complex.exp (((bP : ℝ) : ℂ) * Complex.I),
       ((c : ℝ) : ℂ) * Complex.exp (((-aP : ℝ) : ℂ) * Complex.I)⟩ := by
  have hneg : ∀ u : ℝ, -((u : ℝ) : ℂ) * Complex.I = ((-u : ℝ) : ℂ) * Complex.I := by
    intro u
    push_cast
    ring
  refine M2C.ext ?_ ?_ ?_ ?_ <;>
    simp only [m2cMul, RzMat, mul_zero, zero_mul, add_zero, zero_add, hneg]
  · calc Complex.exp (↑(-((-aP + bP) / 2)) * Complex.I) * ↑c *
          Complex.exp (↑(-((-aP - bP) / 2)) * Complex.I) =
        ↑c * (Complex.exp (↑(-((-aP + bP) / 2)) * Complex.I) *
          Complex.exp (↑(-((-aP - bP) / 2)) * Complex.I)) := by ring
      _ = ↑c * Complex.exp (↑(-((-aP + bP) / 2) + -((-aP - bP) / 2)) * Complex.I) := by
          rw [exp_real_I_mul]
      _ = ↑c * Complex.exp (↑aP * Complex.I) := by
          rw [show -((-aP + bP) / 2) + -((-aP - bP) / 2) = aP from by ring]
  · calc Complex.exp (↑(-((-aP + bP) / 2)) * Complex.I) * -↑s *
          Complex.exp (↑((-aP - bP) / 2) * Complex.I) =
        -(↑s * (Complex.exp (↑(-((-aP + bP) / 2)) * Complex.I) *
          Complex.exp (↑((-aP - bP) / 2) * Complex.I))) := by ring
      _ = -(↑s * Complex.exp (↑(-((-aP + bP) / 2) + (-aP - bP) / 2) * Complex.I)) := by
          rw [exp_real_I_mul]
      _ = -(↑s * Complex.exp (↑(-bP) * Complex.I)) := by
          rw [show -((-aP + bP) / 2) + (-aP - bP) / 2 = -bP from by ring]
  · calc Complex.exp (↑((-aP + bP) / 2) * Complex.I) * ↑s *
          Complex.exp (↑(-((-aP - bP) / 2)) * Complex.I) =
        ↑s * (Complex.exp (↑((-aP + bP) / 2) * Complex.I) *
          Complex.exp (↑(-((-aP - bP) / 2)) * Complex.I)) := by ring
      _ = ↑s * Complex.exp (↑((-aP + bP) / 2 + -((-aP - bP) / 2)) * Complex.I) := by
          rw [exp_real_I_mul]
      _ = ↑s * Complex.exp (↑bP * Complex.I) := by
          rw [show (-aP + bP) / 2 + -((-aP - bP) / 2) = bP from by ring]
  · calc Complex.exp (↑((-aP + bP) / 2) * Complex.I) * ↑c *
          Complex.exp (↑((-aP - bP) / 2) * Complex.I) =
        ↑c * (Complex.exp (↑((-aP + bP) / 2) * Complex.I) *
          Complex.exp (↑((-aP - bP) / 2) * Complex.I)) := by ring
      _ = ↑c * Complex.exp (↑((-aP + bP) / 2 + (-aP - bP) / 2) * Complex.I) := by
          rw [exp_real_I_mul]
      _ = ↑c * Complex.exp (↑(-aP) * Complex.I) := by
          rw [show (-aP + bP) / 2 + (-aP - bP) / 2 = -aP from by ring]

/-- C7: for every pair `(alpha, beta)` with `|alpha|² + |beta|² = 1`, the
pair-to-ZYZ decoder returns `ry = 2·acos(|alpha|)`,
`rz2 = −phase(alpha) + phase(beta)`, `rz1 = −phase(alpha) − phase(beta)`,
and `Rz(rz2)·Ry(ry)·Rz(rz1)` equals `U(alpha, beta)` up to global phase
(indeed with global phase `e^{i·0} = 1`). -/
theorem getZYZRotAnglesFromComplexPair_spec (alpha beta : Cmplx ℝ)
    (h : cmplxNormSq alpha + cmplxNormSq beta = 1) :
    (getZYZRotAnglesFromComplexPair alpha beta).2.1 =
      2 * Real.arccos (Complex.abs (toC alpha)) ∧
    (getZYZRotAnglesFromComplexPair alpha beta).1 =
      -Complex.arg (toC alpha) + Complex.arg (toC beta) ∧
    (getZYZRotAnglesFromComplexPair alpha beta).2.2 =
      -Complex.arg (toC alpha) - Complex.arg (toC beta) ∧
    ∃ phi : ℝ,
      m2cMul (m2cMul (RzMat (getZYZRotAnglesFromComplexPair alpha beta).1)
          (RyMat (getZYZRotAnglesFromComplexPair alpha beta).2.1))
        (RzMat (getZYZRotAnglesFromComplexPair alpha beta).2.2) =
      m2cPhaseMul phi (uPairMatrix alpha beta) := by
  have hmag : Real.sqrt (alpha.re * alpha.re + alpha.im * alpha.im) =
      Complex.abs (toC alpha) := by
    rw [Complex.abs_apply, Complex.normSq_apply]
    rfl
  have hnsa : Complex.abs (toC alpha) ^ 2 = cmplxNormSq alpha := by
    rw [Complex.sq_abs, Complex.normSq_apply]
    rfl
  have hnsb : Complex.abs (toC beta) ^ 2 = cmplxNormSq beta := by
    rw [Complex.sq_abs, Complex.normSq_apply]
    rfl
  have hA0 : 0 ≤ Complex.abs (toC alpha) := AbsoluteValue.nonneg _ _
  have hB0 : 0 ≤ Complex.abs (toC beta) := AbsoluteValue.nonneg _ _
  have hA1 : Complex.abs (toC alpha) ≤ 1 := by
    nlinarith [sq_nonneg (Complex.abs (toC beta)), sq_nonneg (Complex.abs (toC alpha) - 1)]
  have hcos : Real.cos (Real.arccos (Complex.abs (toC alpha))) = Complex.abs (toC alpha) :=
    Real.cos_arccos (by linarith) hA1
  have hsin : Real.sin (Real.arccos (Complex.abs (toC alpha))) = Complex.abs (toC beta) := by
    rw [Real.sin_arccos, hnsa, show 1 - cmplxNormSq alpha = cmplxNormSq beta from by linarith,
      ← hnsb]
    exact Real.sqrt_sq hB0
  refine ⟨?_, rfl, rfl, ?_⟩
  · simp only [getZYZRotAnglesFromComplexPair]
    rw [hmag]
  · refine ⟨0, ?_⟩
    have hphase0 : m2cPhaseMul 0 (uPairMatrix alpha beta) = uPairMatrix alpha beta := by
      simp [m2cPhaseMul]
    rw [hphase0]
    simp only [getZYZRotAnglesFromComplexPair]
    rw [hmag]
    rw [show RyMat (2 * Real.arccos (Complex.abs (toC alpha))) =
        (⟨((Complex.abs (toC alpha) : ℝ) : ℂ), -(((Complex.abs (toC beta) : ℝ) : ℂ)),
          ((Complex.abs (toC beta) : ℝ) : ℂ), ((Complex.abs (toC alpha) : ℝ) : ℂ)⟩ : M2C)
        from by
      simp only [RyMat]
      rw [show 2 * Real.arccos (Complex.abs (toC alpha)) / 2 =
          Real.arccos (Complex.abs (toC alpha)) from by ring, hcos, hsin]]
    rw [zyz_product_entries]
    apply M2C.ext
    · exact Complex.abs_mul_exp_arg_mul_I (toC alpha)
    · exact congrArg Neg.neg (abs_mul_exp_neg_arg_mul_I (toC beta))
    · exact Complex.abs_mul_exp_arg_mul_I (toC beta)
    · exact abs_mul_exp_neg_arg_mul_I (toC alpha)

/-- Witness for C7 at `alpha = 1`, `beta = 0`. -/
theorem getZYZRotAnglesFromComplexPair_spec_witness :
    (cmplxNormSq (⟨1, 0⟩ : Cmplx ℝ) + cmplxNormSq (⟨0, 0⟩ : Cmplx ℝ) = 1) ∧
    ((getZYZRotAnglesFromComplexPair ⟨1, 0⟩ ⟨0, 0⟩).2.1 =
      2 * Real.arccos (Complex.abs (toC ⟨1, 0⟩)) ∧
    (getZYZRotAnglesFromComplexPair ⟨1, 0⟩ ⟨0, 0⟩).1 =
      -Complex.arg (toC ⟨1, 0⟩) + Complex.arg (toC ⟨0, 0⟩) ∧
    (getZYZRotAnglesFromComplexPair ⟨1, 0⟩ ⟨0, 0⟩).2.2 =
      -Complex.arg (toC ⟨1, 0⟩) - Complex.arg (toC ⟨0, 0⟩) ∧
    ∃ phi : ℝ,
      m2cMul (m2cMul (RzMat (getZYZRotAnglesFromComplexPair ⟨1, 0⟩ ⟨0, 0⟩).1)
          (RyMat (getZYZRotAnglesFromComplexPair ⟨1, 0⟩ ⟨0, 0⟩).2.1))
        (RzMat (getZYZRotAnglesFromComplexPair ⟨1, 0⟩ ⟨0, 0⟩).2.2) =
      m2cPhaseMul phi (uPairMatrix ⟨1, 0⟩ ⟨0, 0⟩)) := by
  have hn : cmplxNormSq (⟨1, 0⟩ : Cmplx ℝ) + cmplxNormSq (⟨0, 0⟩ : Cmplx ℝ) = 1 := by
    norm_num [cmplxNormSq]
  exact ⟨hn, getZYZRotAnglesFromComplexPair_spec ⟨1, 0⟩ ⟨0, 0⟩ hn⟩

/-- `getComplexPairAndPhaseFromUnitary` (lines 120-132): maps
`U(r0c0, r0c1, r1c0, r1c1)` to `exp(i·globalPhase)·U(alpha, beta)`,
returned as `(alpha, beta, globalPhase)`. -/
noncomputable def getComplexPairAndPhaseFromUnitary (u : ComplexMatrix2 ℝ) :
    Cmplx ℝ × Cmplx ℝ × ℝ :=
  let r0c0Phase := atan2 u.r0c0.im u.r0c0.re
  let r1c1Phase := atan2 u.r1c1.im u.r1c1.re
  let globalPhase := (r0c0Phase + r1c1Phase) / 2
  let cosPhase := Real.cos globalPhase
  let sinPhase := Real.sin globalPhase
  (⟨u.r0c0.re * cosPhase + u.r0c0.im * sinPhase,
    u.r0c0.im * cosPhase - u.r0c0.re * sinPhase⟩,
   ⟨u.r1c0.re * cosPhase + u.r1c0.im * sinPhase,
    u.r1c0.im * cosPhase - u.r1c0.re * sinPhase⟩,
   globalPhase)

/-- The reconstruction
`e^{i·globalPhase} · [[alpha, −conj(beta)], [beta, conj(alpha)]]` from the
factorization of `u`. -/
noncomputable def reconstructFromFactorization (u : ComplexMatrix2 ℝ) : M2C :=
  m2cPhaseMul (getComplexPairAndPhaseFromUnitary u).2.2
    (uPairMatrix (getComplexPairAndPhaseFromUnitary u).1
      (getComplexPairAndPhaseFromUnitary u).2.1)

/-- A source 2x2 matrix viewed over Mathlib's `ℂ`. -/
def toM2C (u : ComplexMatrix2 ℝ) : M2C :=
  ⟨toC u.r0c0, toC u.r0c1, toC u.r1c0, toC u.r1c1⟩

/-- The Pauli-X matrix `[[0, 1], [1, 0]]` as a source 2x2 matrix. -/
def pauliXMatrix2 : ComplexMatrix2 ℝ :=
  ⟨⟨0, 0⟩, ⟨1, 0⟩, ⟨1, 0⟩, ⟨0, 0⟩⟩

/-- C8 counterexample: the Pauli-X matrix is a 2x2 unitary, yet
factorization followed by reconstruction does not reproduce it: with
`U00 = U11 = 0` both phases are `atan2(0,0) = 0`, so the reconstruction
yields `[[0, −1], [1, 0]]` instead of `[[0, 1], [1, 0]]`. -/
theorem reconstruct_fails_on_pauliX :
    IsUnitary2 pauliXMatrix2 ∧
    reconstructFromFactorization pauliXMatrix2 ≠ toM2C pauliXMatrix2 := by
  constructor
  · refine ⟨?_, ?_, ?_, ?_⟩ <;> (ext <;> norm_num [pauliXMatrix2, getConjComplexProd])
  · have hz : ((⟨0, 0⟩ : ℂ) : ℂ) = 0 := rfl
    have harg : atan2 (0 : ℝ) 0 = 0 := by
      rw [atan2, hz, Complex.arg_zero]
    intro hcontra
    have hb := congrArg M2C.b hcontra
    rw [reconstructFromFactorization, getComplexPairAndPhaseFromUnitary] at hb
    simp only [pauliXMatrix2, harg, m2cPhaseMul, uPairMatrix, toM2C] at hb
    norm_num [toC, Complex.ext_iff] at hb

/-- `toC` commutes with addition. -/
theorem toC_add (a b : Cmplx ℝ) : toC (a + b) = toC a + toC b := by
  apply Complex.ext <;> simp [toC]

/-- `toC` commutes with multiplication. -/
theorem toC_mul (a b : Cmplx ℝ) : toC (a * b) = toC a * toC b := by
  apply Complex.ext <;> simp [toC, Complex.mul_re, Complex.mul_im]

/-- `toC` maps the source conjugation to complex conjugation. -/
theorem toC_conj (a : Cmplx ℝ) : toC (getConjugateScalar a) = (starRingEnd ℂ) (toC a) := by
  apply Complex.ext <;> simp [toC, getConjugateScalar]

/-- `toC` of one. -/
theorem toC_one : toC 1 = 1 := by
  apply Complex.ext <;> simp [toC]

/-- `toC` of zero. -/
theorem toC_zero : toC 0 = 0 := by
  apply Complex.ext <;> simp [toC]

/-- `toC` of the source's fused conjugate-product. -/
theorem toC_conjProd (a b : Cmplx ℝ) :
    toC (getConjComplexProd a b) = (starRingEnd ℂ) (toC a) * toC b := by
  rw [getConjComplexProd_eq, toC_mul, toC_conj]

/-- Opposite-angle circle exponentials cancel. -/
theorem exp_real_I_cancel (t : ℝ) :
    Complex.exp ((t : ℝ) * Complex.I) * Complex.exp (((-t : ℝ) : ℂ) * Complex.I) = 1 := by
  rw [exp_real_I_mul, show t + -t = 0 from by ring]
  simp

/-- Conjugation negates the angle of a circle exponential. -/
theorem conj_exp_real_I (t : ℝ) :
    (starRingEnd ℂ) (Complex.exp ((t : ℝ) * Complex.I)) =
      Complex.exp (((-t : ℝ) : ℂ) * Complex.I) := by
  rw [← Complex.exp_conj, map_mul, Complex.conj_ofReal, Complex.conj_I]
  push_cast
  ring_nf

/-- Multiplying a complex number's components by `(cos t, sin t)` in the
source's pattern rotates it by `−t`. -/
theorem toC_phase_rotate (v : Cmplx ℝ) (t : ℝ) :
    (toC ⟨v.re * Real.cos t + v.im * Real.sin t,
          v.im * Real.cos t - v.re * Real.sin t⟩ : ℂ) =
      toC v * Complex.exp (((-t : ℝ) : ℂ) * Complex.I) := by
  apply Complex.ext <;>
    simp only [toC, Complex.mul_re, Complex.mul_im, Complex.exp_ofReal_mul_I_re,
      Complex.exp_ofReal_mul_I_im, Real.cos_neg, Real.sin_neg] <;>
    ring

/-- C's `atan2` applied to a value's components is the argument of its
complex embedding. -/
theorem atan2_toC (v : Cmplx ℝ) : atan2 v.im v.re = Complex.arg (toC v) :=
  rfl

/-- C8 (amended): for every 2x2 unitary `U` whose top-left entry `U00` is
non-zero, the factorization yields
`globalPhase = (phase(U00) + phase(U11))/2` and a pair `(alpha, beta)` such
that `e^{i·globalPhase}·[[alpha, −conj(beta)], [beta, conj(alpha)]]`
reproduces `U` exactly.  (The claim without the `U00 ≠ 0` restriction is
refuted by `reconstruct_fails_on_pauliX`.) -/
theorem getComplexPairAndPhaseFromUnitary_roundtrip (u : ComplexMatrix2 ℝ)
    (hu : IsUnitary2 u) (h0 : toC u.r0c0 ≠ 0) :
    reconstructFromFactorization u = toM2C u := by
  obtain ⟨e1, e2, e4a, e4⟩ := hu
  have E1 : (starRingEnd ℂ) (toC u.r0c0) * toC u.r0c0 +
      (starRingEnd ℂ) (toC u.r1c0) * toC u.r1c0 = 1 := by
    have h := congrArg toC e1
    rwa [toC_add, toC_conjProd, toC_conjProd, toC_one] at h
  have E2 : (starRingEnd ℂ) (toC u.r0c0) * toC u.r0c1 +
      (starRingEnd ℂ) (toC u.r1c0) * toC u.r1c1 = 0 := by
    have h := congrArg toC e2
    rwa [toC_add, toC_conjProd, toC_conjProd, toC_zero] at h
  have E4 : (starRingEnd ℂ) (toC u.r0c1) * toC u.r0c1 +
      (starRingEnd ℂ) (toC u.r1c1) * toC u.r1c1 = 1 := by
    have h := congrArg toC e4
    rwa [toC_add, toC_conjProd, toC_conjProd, toC_one] at h
  have hnz : Complex.normSq (toC u.r0c0) + Complex.normSq (toC u.r1c0) = 1 := by
    have h := E1
    rw [mul_comm ((starRingEnd ℂ) (toC u.r0c0)), Complex.mul_conj,
      mul_comm ((starRingEnd ℂ) (toC u.r1c0)), Complex.mul_conj] at h
    exact_mod_cast h
  have hnw : Complex.normSq (toC u.r0c1) + Complex.normSq (toC u.r1c1) = 1 := by
    have h := E4
    rw [mul_comm ((starRingEnd ℂ) (toC u.r0c1)), Complex.mul_conj,
      mul_comm ((starRingEnd ℂ) (toC u.r1c1)), Complex.mul_conj] at h
    exact_mod_cast h
  have hprod : Complex.normSq (toC u.r0c0) * Complex.normSq (toC u.r0c1) =
      Complex.normSq (toC u.r1c0) * Complex.normSq (toC u.r1c1) := by
    have h := congrArg Complex.normSq (eq_neg_of_add_eq_zero_left E2)
    rwa [Complex.normSq_mul, Complex.normSq_neg, Complex.normSq_mul,
      Complex.normSq_conj, Complex.normSq_conj] at h
  have hDA : Complex.normSq (toC u.r1c1) = Complex.normSq (toC u.r0c0) := by
    have hB' : Complex.normSq (toC u.r1c0) = 1 - Complex.normSq (toC u.r0c0) := by
      linarith
    have hC' : Complex.normSq (toC u.r0c1) = 1 - Complex.normSq (toC u.r1c1) := by
      linarith
    rw [hB', hC'] at hprod
    nlinarith [hprod]
  have hw0 : toC u.r1c1 ≠ 0 := by
    intro hw
    rw [hw, Complex.normSq_zero] at hDA
    exact h0 (Complex.normSq_eq_zero.mp hDA.symm)
  have habsz : Complex.abs (toC u.r0c0) ≠ 0 := Complex.abs.ne_zero h0
  have habsw : Complex.abs (toC u.r1c1) ≠ 0 := Complex.abs.ne_zero hw0
  have habs_eq : Complex.abs (toC u.r1c1) = Complex.abs (toC u.r0c0) := by
    rw [Complex.abs_apply, Complex.abs_apply, hDA]
  have hzz : toC u.r0c0 * (starRingEnd ℂ) (toC u.r0c0) =
      ((Complex.abs (toC u.r0c0) : ℝ) : ℂ) * ((Complex.abs (toC u.r0c0) : ℝ) : ℂ) := by
    rw [Complex.mul_conj, ← Complex.ofReal_mul]
    norm_cast
    rw [Complex.normSq_eq_abs]
    ring
  have hexpz : Complex.exp ((Complex.arg (toC u.r0c0) : ℝ) * Complex.I) =
      toC u.r0c0 / ((Complex.abs (toC u.r0c0) : ℝ) : ℂ) := by
    rw [eq_div_iff (by exact_mod_cast habsz)]
    linear_combination Complex.abs_mul_exp_arg_mul_I (toC u.r0c0)
  have hexpw : Complex.exp ((Complex.arg (toC u.r1c1) : ℝ) * Complex.I) =
      toC u.r1c1 / ((Complex.abs (toC u.r1c1) : ℝ) : ℂ) := by
    rw [eq_div_iff (by exact_mod_cast habsw)]
    linear_combination Complex.abs_mul_exp_arg_mul_I (toC u.r1c1)
  have hexp2 : Complex.exp
        ((((Complex.arg (toC u.r0c0) + Complex.arg (toC u.r1c1)) : ℝ) : ℂ) * Complex.I) *
      (starRingEnd ℂ) (toC u.r0c0) = toC u.r1c1 := by
    rw [← exp_real_I_mul, hexpz, hexpw, habs_eq]
    have hA : ((Complex.abs (toC u.r0c0) : ℝ) : ℂ) ≠ 0 := by exact_mod_cast habsz
    field_simp
    linear_combination toC u.r1c1 * hzz
  have hconjz : (starRingEnd ℂ) (toC u.r0c0) ≠ 0 := by
    rw [Ne, starRingEnd_apply, star_eq_zero]
    exact h0
  have halpha := toC_phase_rotate u.r0c0
    ((Complex.arg (toC u.r0c0) + Complex.arg (toC u.r1c1)) / 2)
  have hbeta := toC_phase_rotate u.r1c0
    ((Complex.arg (toC u.r0c0) + Complex.arg (toC u.r1c1)) / 2)
  rw [reconstructFromFactorization]
  simp only [getComplexPairAndPhaseFromUnitary, atan2_toC]
  simp only [m2cPhaseMul, uPairMatrix, toM2C]
  refine M2C.ext ?_ ?_ ?_ ?_ <;> dsimp only
  · rw [halpha]
    calc Complex.exp
          ((((Complex.arg (toC u.r0c0) + Complex.arg (toC u.r1c1)) / 2 : ℝ) : ℂ) *
            Complex.I) *
          (toC u.r0c0 *
            Complex.exp
              (((-((Complex.arg (toC u.r0c0) + Complex.arg (toC u.r1c1)) / 2) : ℝ) : ℂ) *
                Complex.I)) =
        toC u.r0c0 *
          (Complex.exp
              ((((Complex.arg (toC u.r0c0) + Complex.arg (toC u.r1c1)) / 2 : ℝ) : ℂ) *
                Complex.I) *
            Complex.exp
              (((-((Complex.arg (toC u.r0c0) + Complex.arg (toC u.r1c1)) / 2) : ℝ) : ℂ) *
                Complex.I)) := by ring
      _ = toC u.r0c0 := by rw [exp_real_I_cancel, mul_one]
  · rw [hbeta, map_mul, conj_exp_real_I, neg_neg]
    apply mul_left_cancel₀ hconjz
    calc (starRingEnd ℂ) (toC u.r0c0) *
          (Complex.exp
              ((((Complex.arg (toC u.r0c0) + Complex.arg (toC u.r1c1)) / 2 : ℝ) : ℂ) *
                Complex.I) *
            -((starRingEnd ℂ) (toC u.r1c0) *
              Complex.exp
                ((((Complex.arg (toC u.r0c0) + Complex.arg (toC u.r1c1)) / 2 : ℝ) : ℂ) *
                  Complex.I))) =
        -((starRingEnd ℂ) (toC u.r1c0) *
          (Complex.exp
              ((((Complex.arg (toC u.r0c0) + Complex.arg (toC u.r1c1)) / 2 : ℝ) : ℂ) *
                Complex.I) *
            Complex.exp
              ((((Complex.arg (toC u.r0c0) + Complex.arg (toC u.r1c1)) / 2 : ℝ) : ℂ) *
                Complex.I)) * (starRingEnd ℂ) (toC u.r0c0)) := by ring
      _ = -((starRingEnd ℂ) (toC u.r1c0) *
          Complex.exp
            ((((Complex.arg (toC u.r0c0) + Complex.arg (toC u.r1c1)) / 2 +
                (Complex.arg (toC u.r0c0) + Complex.arg (toC u.r1c1)) / 2 : ℝ) : ℂ) *
              Complex.I) * (starRingEnd ℂ) (toC u.r0c0)) := by rw [exp_real_I_mul]
      _ = -((starRingEnd ℂ) (toC u.r1c0) *
          Complex.exp
            ((((Complex.arg (toC u.r0c0) + Complex.arg (toC u.r1c1)) : ℝ) : ℂ) *
              Complex.I) * (starRingEnd ℂ) (toC u.r0c0)) := by
          rw [show (Complex.arg (toC u.r0c0) + Complex.arg (toC u.r1c1)) / 2 +
              (Complex.arg (toC u.r0c0) + Complex.arg (toC u.r1c1)) / 2 =
              Complex.arg (toC u.r0c0) + Complex.arg (toC u.r1c1) from by ring]
      _ = -((starRingEnd ℂ) (toC u.r1c0) * toC u.r1c1) := by rw [mul_assoc, hexp2]
      _ = (starRingEnd ℂ) (toC u.r0c0) * toC u.r0c1 := by linear_combination -E2
  · rw [hbeta]
    calc Complex.exp
          ((((Complex.arg (toC u.r0c0) + Complex.arg (toC u.r1c1)) / 2 : ℝ) : ℂ) *
            Complex.I) *
          (toC u.r1c0 *
            Complex.exp
              (((-((Complex.arg (toC u.r0c0) + Complex.arg (toC u.r1c1)) / 2) : ℝ) : ℂ) *
                Complex.I)) =
        toC u.r1c0 *
          (Complex.exp
              ((((Complex.arg (toC u.r0c0) + Complex.arg (toC u.r1c1)) / 2 : ℝ) : ℂ) *
                Complex.I) *
            Complex.exp
              (((-((Complex.arg (toC u.r0c0) + Complex.arg (toC u.r1c1)) / 2) : ℝ) : ℂ) *
                Complex.I)) := by ring
      _ = toC u.r1c0 := by rw [exp_real_I_cancel, mul_one]
  · rw [halpha, map_mul, conj_exp_real_I, neg_neg]
    calc Complex.exp
          ((((Complex.arg (toC u.r0c0) + Complex.arg (toC u.r1c1)) / 2 : ℝ) : ℂ) *
            Complex.I) *
          ((starRingEnd ℂ) (toC u.r0c0) *
            Complex.exp
              ((((Complex.arg (toC u.r0c0) + Complex.arg (toC u.r1c1)) / 2 : ℝ) : ℂ) *
                Complex.I)) =
        Complex.exp
            ((((Complex.arg (toC u.r0c0) + Complex.arg (toC u.r1c1)) / 2 : ℝ) : ℂ) *
              Complex.I) *
          Complex.exp
            ((((Complex.arg (toC u.r0c0) + Complex.arg (toC u.r1c1)) / 2 : ℝ) : ℂ) *
              Complex.I) * (starRingEnd ℂ) (toC u.r0c0) := by ring
      _ = Complex.exp
            ((((Complex.arg (toC u.r0c0) + Complex.arg (toC u.r1c1)) / 2 +
                (Complex.arg (toC u.r0c0) + Complex.arg (toC u.r1c1)) / 2 : ℝ) : ℂ) *
              Complex.I) * (starRingEnd ℂ) (toC u.r0c0) := by rw [exp_real_I_mul]
      _ = Complex.exp
            ((((Complex.arg (toC u.r0c0) + Complex.arg (toC u.r1c1)) : ℝ) : ℂ) *
              Complex.I) * (starRingEnd ℂ) (toC u.r0c0) := by
          rw [show (Complex.arg (toC u.r0c0) + Complex.arg (toC u.r1c1)) / 2 +
              (Complex.arg (toC u.r0c0) + Complex.arg (toC u.r1c1)) / 2 =
              Complex.arg (toC u.r0c0) + Complex.arg (toC u.r1c1) from by ring]
      _ = toC u.r1c1 := hexp2

/-- Witness for the amended C8 at `U` the identity matrix. -/
theorem getComplexPairAndPhaseFromUnitary_roundtrip_witness :
    (IsUnitary2 (⟨⟨1, 0⟩, ⟨0, 0⟩, ⟨0, 0⟩, ⟨1, 0⟩⟩ : ComplexMatrix2 ℝ) ∧
      toC (⟨1, 0⟩ : Cmplx ℝ) ≠ 0) ∧
    reconstructFromFactorization (⟨⟨1, 0⟩, ⟨0, 0⟩, ⟨0, 0⟩, ⟨1, 0⟩⟩ : ComplexMatrix2 ℝ) =
      toM2C (⟨⟨1, 0⟩, ⟨0, 0⟩, ⟨0, 0⟩, ⟨1, 0⟩⟩ : ComplexMatrix2 ℝ) := by
  have hu : IsUnitary2 (⟨⟨1, 0⟩, ⟨0, 0⟩, ⟨0, 0⟩, ⟨1, 0⟩⟩ : ComplexMatrix2 ℝ) := by
    refine ⟨?_, ?_, ?_, ?_⟩ <;> (ext <;> norm_num [getConjComplexProd])
  have h0 : toC (⟨1, 0⟩ : Cmplx ℝ) ≠ 0 := by
    intro hh
    have := congrArg Complex.re hh
    norm_num [toC] at this
  exact ⟨⟨hu, h0⟩,
    getComplexPairAndPhaseFromUnitary_roundtrip ⟨⟨1, 0⟩, ⟨0, 0⟩, ⟨0, 0⟩, ⟨1, 0⟩⟩ hu h0⟩

end QuESTCommon
